import Mathlib

/-!
Verification of the output-select and settings-navigation components.

The embedding translates two TypeScript modules:
  * `output-select.tsx`: derives a flat list of selectable output handles
    from workflow blocks, groups them by block name, and orders the groups
    by breadth-first distance from the starter block.
  * `settings-navigation.tsx`: filters a static navigation-item list by a
    dev-mode flag and a team flag.

JavaScript runtime values that can appear in a block's `outputs` field are
modelled as a tagged tree `Value` (leaves: null, booleans, numbers, strings;
inner nodes: objects as ordered key/value field lists, matching object
property insertion order). Records keyed by strings are modelled as
association lists in insertion order. JavaScript truthiness is modelled by
`Value.truthy`.
-/

mutual
/-- A JavaScript value as it can appear in a block's `outputs` field:
either a leaf (null, boolean, number, string) or an object with ordered
fields. Mutual with `Fields`, the ordered field list of an object. -/
inductive Value where
  | vnull
  | vbool (b : Bool)
  | vnum (n : Int)
  | vstr (s : String)
  | vobj (fields : Fields)
deriving DecidableEq
inductive Fields where
  | fnil
  | fcons (key : String) (val : Value) (rest : Fields)
deriving DecidableEq
end

/-- JavaScript truthiness of a `Value` (`if (v)`): null, `false`, `0` and
the empty string are falsy; every object is truthy. -/
def Value.truthy : Value → Bool
  | .vnull => false
  | .vbool b => b
  | .vnum n => n != 0
  | .vstr s => s != ""
  | .vobj _ => true

/-- Property access `obj[key]` on an object's field list: the value of the
first field with the given key, `none` when absent (`undefined`). -/
def Fields.get : Fields → String → Option Value
  | .fnil, _ => none
  | .fcons k v rest, key => if k = key then some v else rest.get key

/-- A workflow block as read from the store: id, display name, type tag and
the `outputs` field (`none` models `undefined`). -/
structure Block where
  id : String
  name : String
  type : String
  outputs : Option Value

/-- A directed edge of the workflow graph. -/
structure Edge where
  source : String
  target : String

/-- One selectable output handle, as pushed by `addOutput`. -/
structure Handle where
  id : String
  label : String
  blockId : String
  blockName : String
  blockType : String
  path : String
deriving DecidableEq, Repr

/-- `block.name.replace(/\s+/g, '').toLowerCase()`: drop every whitespace
character, then lower-case each remaining character. -/
def normalizeName (s : String) : String :=
  String.mk ((s.data.filter (fun c => !c.isWhitespace)).map Char.toLower)

/-- The handle `addOutput` pushes for block `b` at a given full path:
`id` is `` `${block.id}_${fullPath}` ``, `label` is
`` `${blockName}.${fullPath}` `` with the normalized block name. -/
def mkHandle (b : Block) (fullPath : String) : Handle :=
  { id := b.id ++ "_" ++ fullPath
    label := normalizeName b.name ++ "." ++ fullPath
    blockId := b.id
    blockName := b.name
    blockType := b.type
    path := fullPath }

/-- `` prefix ? `${prefix}.${path}` : path ``: the full path `addOutput`
computes (the empty string is falsy). -/
def joinPath (pre path : String) : String :=
  if pre = "" then path else pre ++ "." ++ path

mutual
/-- The recursive `addOutput(path, outputObj, prefix)` closure of
`workflowOutputs`: computes the full path (joining with a dot unless the
prefix is empty), then recurses through object fields or emits one handle
at a leaf. `addOutputFields` iterates `Object.entries` in field order. -/
def addOutput (b : Block) (path : String) (v : Value) (pre : String) :
    List Handle :=
  match v with
  | .vobj fs => addOutputFields b fs (joinPath pre path)
  | _ => [mkHandle b (joinPath pre path)]
def addOutputFields (b : Block) (fs : Fields) (fullPath : String) :
    List Handle :=
  match fs with
  | .fnil => []
  | .fcons k v rest => addOutput b k v fullPath ++ addOutputFields b rest fullPath
end

/-- The handles one block contributes in `workflowOutputs`: starter blocks
are skipped; `outputs` must be a truthy object; the `response` field must
be present and truthy; then `addOutput('response', block.outputs.response)`
runs. -/
def blockHandles (b : Block) : List Handle :=
  if b.type = "starter" then []
  else
    match b.outputs with
    | some (.vobj fs) =>
      match fs.get "response" with
      | some v => if v.truthy then addOutput b "response" v "" else []
      | none => []
    | _ => []

/-- `workflowOutputs`: empty when the workflow id is null, otherwise the
concatenation of every block's handles in block order. -/
def workflowOutputs (workflowId : Option String) (blocks : List Block) :
    List Handle :=
  match workflowId with
  | none => []
  | some _ => blocks.flatMap blockHandles

/-- `selectedOutputDisplayName`: the placeholder when nothing is selected,
otherwise the normalized-name dotted path of the first handle whose id
matches, or the placeholder when none matches. -/
def selectedOutputDisplayName (selectedOutput : Option String)
    (placeholder : String) (hs : List Handle) : String :=
  match selectedOutput with
  | none => placeholder
  | some sid =>
    match hs.find? (fun o => o.id = sid) with
    | some o => normalizeName o.blockName ++ "." ++ o.path
    | none => placeholder

/-- Dot-joining of a key sequence, as in the spec's "dot-joined key
sequence". -/
def dotJoin : List String → String
  | [] => ""
  | [s] => s
  | s :: rest => s ++ "." ++ dotJoin rest

mutual
/-- Spec side: the relative key paths of all leaves of a value. A leaf has
the single empty path; an object contributes each field's leaf paths
extended by the field's key, in field order. -/
def leafPaths : Value → List (List String)
  | .vobj fs => leafPathsFields fs
  | _ => [[]]
def leafPathsFields : Fields → List (List String)
  | .fnil => []
  | .fcons k v rest => (leafPaths v).map (k :: ·) ++ leafPathsFields rest
end

/-- Spec side, the claim as stated: a non-starter block whose `outputs` is
an object with a `response` field yields one handle per leaf reachable
under `response`, at the dot-joined key sequence from `response` to the
leaf. -/
def claimBlockHandles (b : Block) : List Handle :=
  if b.type = "starter" then []
  else
    match b.outputs with
    | some (.vobj fs) =>
      match fs.get "response" with
      | some v => (leafPaths v).map (fun ks => mkHandle b (dotJoin ("response" :: ks)))
      | none => []
    | _ => []

/-- Spec side, amended: as `claimBlockHandles`, but a falsy `response`
value (null, false, 0 or the empty string) yields no handles, matching the
code's truthiness guard. -/
def amendedBlockHandles (b : Block) : List Handle :=
  if b.type = "starter" then []
  else
    match b.outputs with
    | some (.vobj fs) =>
      match fs.get "response" with
      | some v =>
        if v.truthy then (leafPaths v).map (fun ks => mkHandle b (dotJoin ("response" :: ks)))
        else []
      | none => []
    | _ => []

/-- One grouping step of `groupedOutputs`: append the handle to its block
name's group, or open a new group at the end (record key insertion
order). -/
def insertGrouped (acc : List (String × List Handle)) (h : Handle) :
    List (String × List Handle) :=
  match acc with
  | [] => [(h.blockName, [h])]
  | (n, l) :: rest =>
    if n = h.blockName then (n, l ++ [h]) :: rest
    else (n, l) :: insertGrouped rest h

/-- `groupedOutputs` step "Group by block name": fold every handle into the
insertion-ordered group list. -/
def groupByName (hs : List Handle) : List (String × List Handle) :=
  hs.foldl insertGrouped []

/-- A `groupsArray` entry of `groupedOutputs`: block name, the group's
handles, and the sort distance. -/
structure OutGroup where
  blockName : String
  outputs : List Handle
  distance : Nat
deriving DecidableEq, Repr

/-- `groupedOutputs` step "Convert to array for sorting": each group gets
the distance of the block owning its first handle (`outputs[0]?.blockId`),
zero when the id is falsy or has no computed distance
(`blockDistances[blockId] || 0`). -/
def groupsArrayOf (dist : List (String × Nat))
    (groups : List (String × List Handle)) : List OutGroup :=
  groups.map (fun g =>
    { blockName := g.1
      outputs := g.2
      distance :=
        match g.2.head? with
        | some h => if h.blockId = "" then 0 else ((dist.lookup h.blockId).getD 0)
        | none => 0 })

/-- Stable insertion of a group into a distance-descending sorted list: the
group goes before the first group of less-or-equal distance, so it lands
before later-discovered groups of equal distance. -/
def insertDesc (g : OutGroup) : List OutGroup → List OutGroup
  | [] => [g]
  | h :: t => if h.distance ≤ g.distance then g :: h :: t else h :: insertDesc g t

/-- `groupsArray.sort((a, b) => b.distance - a.distance)`: a stable sort by
descending distance, modelled as insertion sort (JavaScript `sort` is
stable). -/
def sortGroups (gs : List OutGroup) : List OutGroup :=
  gs.foldr insertDesc []

/-- One step of the adjacency-list build: append the edge's target to its
source's entry, or open a new entry at the end. -/
def addEdge (adj : List (String × List String)) (e : Edge) :
    List (String × List String) :=
  match adj with
  | [] => [(e.source, [e.target])]
  | (s, ts) :: rest =>
    if s = e.source then (s, ts ++ [e.target]) :: rest
    else (s, ts) :: addEdge rest e

/-- The adjacency list of `groupedOutputs`: fold every edge in order. -/
def buildAdj (edges : List Edge) : List (String × List String) :=
  edges.foldl addEdge []

/-- Every target mentioned anywhere in an adjacency list. -/
def allTargets (adj : List (String × List String)) : List String :=
  adj.flatMap Prod.snd

theorem lookup_subset_allTargets (adj : List (String × List String))
    (n t : String) (ht : t ∈ (adj.lookup n).getD []) : t ∈ allTargets adj := by
  induction adj with
  | nil => simp [List.lookup] at ht
  | cons hd tl ih =>
    rcases hd with ⟨s, ts⟩
    simp only [List.lookup] at ht
    cases hsb : (n == s) with
    | true =>
      rw [hsb] at ht
      simp only [Option.getD_some] at ht
      simp only [allTargets, List.flatMap_cons, List.mem_append]
      exact Or.inl ht
    | false =>
      rw [hsb] at ht
      simp only [allTargets, List.flatMap_cons, List.mem_append]
      exact Or.inr (ih ht)

/-- The termination measure of the BFS loop: how many distinct ids still
outside the visited set can ever be expanded (ids now in the queue plus
every edge target). -/
def frontierCard (adj : List (String × List String)) (visited : List String)
    (queue : List (String × Nat)) : Nat :=
  ((queue.map Prod.fst ++ allTargets adj).toFinset \ visited.toFinset).card

theorem frontierCard_skip (adj : List (String × List String))
    (visited : List String) (n : String) (d : Nat)
    (queue : List (String × Nat)) (hn : n ∈ visited) :
    frontierCard adj visited queue = frontierCard adj visited ((n, d) :: queue) := by
  unfold frontierCard
  congr 1
  ext x
  simp only [Finset.mem_sdiff, List.mem_toFinset, List.mem_append, List.map_cons,
    List.mem_cons]
  constructor
  · rintro ⟨h1, h2⟩
    exact ⟨by tauto, h2⟩
  · rintro ⟨h1, h2⟩
    rcases h1 with (rfl | h1) | h1
    · exact absurd hn h2
    · exact ⟨Or.inl h1, h2⟩
    · exact ⟨Or.inr h1, h2⟩

theorem frontierCard_expand (adj : List (String × List String))
    (visited : List String) (n : String) (d : Nat)
    (queue : List (String × Nat)) (hn : n ∉ visited) :
    frontierCard adj (n :: visited)
      (queue ++ ((adj.lookup n).getD []).map (fun t => (t, d + 1)))
      < frontierCard adj visited ((n, d) :: queue) := by
  apply Finset.card_lt_card
  rw [Finset.ssubset_iff_of_subset]
  · refine ⟨n, ?_, ?_⟩
    · refine Finset.mem_sdiff.mpr ⟨List.mem_toFinset.mpr ?_, ?_⟩
      · refine List.mem_append.mpr (Or.inl ?_)
        rw [List.map_cons]
        exact List.mem_cons_self _ _
      · intro hc
        exact hn (List.mem_toFinset.mp hc)
    · intro hc
      exact (Finset.mem_sdiff.mp hc).2
        (List.mem_toFinset.mpr (List.mem_cons_self _ _))
  · intro x hx
    rcases Finset.mem_sdiff.mp hx with ⟨hA, hV⟩
    have hxA := List.mem_toFinset.mp hA
    have hxnv : x ∉ (n :: visited) := fun hc => hV (List.mem_toFinset.mpr hc)
    refine Finset.mem_sdiff.mpr ⟨List.mem_toFinset.mpr ?_, ?_⟩
    · rcases List.mem_append.mp hxA with hq | hT
      · rw [List.map_append] at hq
        rcases List.mem_append.mp hq with hq | ht
        · refine List.mem_append.mpr (Or.inl ?_)
          rw [List.map_cons]
          exact List.mem_cons_of_mem _ hq
        · refine List.mem_append.mpr (Or.inr ?_)
          rcases List.mem_map.mp ht with ⟨p, hp, rfl⟩
          rcases List.mem_map.mp hp with ⟨t, htm, rfl⟩
          exact lookup_subset_allTargets adj n t htm
      · exact List.mem_append.mpr (Or.inr hT)
    · intro hc
      exact hxnv (List.mem_cons_of_mem _ (List.mem_toFinset.mp hc))

/-- The BFS loop of `groupedOutputs`: pop the queue front; skip already
visited ids; otherwise mark the id visited, record its distance, and
enqueue the id's adjacency targets at distance plus one. -/
def bfsLoop (adj : List (String × List String)) (visited : List String)
    (dist : List (String × Nat)) (queue : List (String × Nat)) :
    List (String × Nat) :=
  match queue with
  | [] => dist
  | (n, d) :: rest =>
    if n ∈ visited then bfsLoop adj visited dist rest
    else
      bfsLoop adj (n :: visited) (dist ++ [(n, d)])
        (rest ++ ((adj.lookup n).getD []).map (fun t => (t, d + 1)))
termination_by (frontierCard adj visited queue, queue.length)
decreasing_by
  · rename_i hn
    rw [← frontierCard_skip adj visited n d rest hn]
    exact Prod.Lex.right _ (Nat.lt_succ_self _)
  · rename_i hn
    exact Prod.Lex.left _ _ (frontierCard_expand adj visited n d rest hn)

/-- The block-distance map of `groupedOutputs`: when a starter block exists
(the first block of type `starter`), run the BFS from it; otherwise no
distance is computed. -/
def bfsDistancesOf (blocks : List Block) (edges : List Edge) :
    List (String × Nat) :=
  match blocks.find? (fun b => b.type = "starter") with
  | some s => bfsLoop (buildAdj edges) [] [] [(s.id, 0)]
  | none => []

/-- `groupedOutputs` end to end: flatten the handles, compute distances,
group by block name, attach distances, stable-sort descending, and read the
sorted groups back as an insertion-ordered record. -/
def groupedOutputs (workflowId : Option String) (blocks : List Block)
    (edges : List Edge) : List (String × List Handle) :=
  let hs := workflowOutputs workflowId blocks
  let dist := bfsDistancesOf blocks edges
  (sortGroups (groupsArrayOf dist (groupByName hs))).map
    (fun g => (g.blockName, g.outputs))

/-- One settings navigation entry: its section id, display label, and the
two boolean gates (`hideInDev`, `requiresTeam`; an absent gate is
`false`). The icon is display-only and not modelled. -/
structure NavigationItem where
  id : String
  label : String
  hideInDev : Bool
  requiresTeam : Bool
deriving DecidableEq, Repr

/-- The static `allNavigationItems` list of `settings-navigation.tsx`. -/
def allNavigationItems : List NavigationItem :=
  [ { id := "general", label := "General", hideInDev := false, requiresTeam := false }
  , { id := "environment", label := "Environment", hideInDev := false, requiresTeam := false }
  , { id := "account", label := "Account", hideInDev := false, requiresTeam := false }
  , { id := "credentials", label := "Credentials", hideInDev := false, requiresTeam := false }
  , { id := "apikeys", label := "API Keys", hideInDev := false, requiresTeam := false }
  , { id := "subscription", label := "Subscription", hideInDev := true, requiresTeam := false }
  , { id := "team", label := "Team", hideInDev := true, requiresTeam := true } ]

/-- The `navigationItems` filter of `SettingsNavigation`: drop an item when
it is dev-hidden and the environment is dev, or when it requires a team
subscription the user lacks. -/
def navigationItems (isDev isTeam : Bool) : List NavigationItem :=
  allNavigationItems.filter (fun item =>
    if item.hideInDev && isDev then false
    else if item.requiresTeam && !isTeam then false
    else true)

theorem joinPath_ne_empty (pre path : String) (h : pre ≠ "" ∨ path ≠ "") :
    joinPath pre path ≠ "" := by
  unfold joinPath
  split
  · rename_i hp
    rcases h with h | h
    · exact absurd hp h
    · exact h
  · intro hc
    have := congrArg String.length hc
    simp [String.length_append] at this
    exact absurd this.1.2 (by decide)

theorem dotJoin_cons_cons (a b : String) (l : List String) :
    dotJoin ((a ++ "." ++ b) :: l) = a ++ "." ++ dotJoin (b :: l) := by
  cases l with
  | nil => rfl
  | cons c t =>
    show (a ++ "." ++ b) ++ "." ++ dotJoin (c :: t) = a ++ "." ++ (b ++ "." ++ dotJoin (c :: t))
    simp [String.append_assoc]

mutual
theorem addOutput_eq_leafPaths (b : Block) (path : String) (v : Value)
    (pre : String) (hfp : joinPath pre path ≠ "") :
    addOutput b path v pre
      = (leafPaths v).map (fun ks => mkHandle b (dotJoin (joinPath pre path :: ks))) := by
  match v with
  | .vobj fs => exact addOutputFields_eq_leafPaths b fs (joinPath pre path) hfp
  | .vnull => rfl
  | .vbool x => rfl
  | .vnum x => rfl
  | .vstr x => rfl
theorem addOutputFields_eq_leafPaths (b : Block) (fs : Fields) (fp : String)
    (hfp : fp ≠ "") :
    addOutputFields b fs fp
      = (leafPathsFields fs).map (fun ks => mkHandle b (dotJoin (fp :: ks))) := by
  match fs with
  | .fnil => rfl
  | .fcons k v rest =>
    show addOutput b k v fp ++ addOutputFields b rest fp
      = ((leafPaths v).map (k :: ·) ++ leafPathsFields rest).map
          (fun ks => mkHandle b (dotJoin (fp :: ks)))
    rw [List.map_append]
    congr 1
    · have hjk : joinPath fp k = fp ++ "." ++ k := if_neg hfp
      have hne : joinPath fp k ≠ "" := joinPath_ne_empty fp k (Or.inl hfp)
      rw [addOutput_eq_leafPaths b k v fp hne, List.map_map]
      apply List.map_congr_left
      intro ks _
      simp only [Function.comp_apply]
      rw [hjk, dotJoin_cons_cons]
      rfl
    · exact addOutputFields_eq_leafPaths b rest fp hfp
end

theorem blockHandles_eq_amended (b : Block) :
    blockHandles b = amendedBlockHandles b := by
  unfold blockHandles amendedBlockHandles
  split
  · rfl
  · split
    · rename_i fs
      split
      · rename_i v hv
        split
        · rename_i htr
          have h0 : joinPath "" "response" = "response" := rfl
          have hne : joinPath "" "response" ≠ "" := by rw [h0]; decide
          rw [addOutput_eq_leafPaths b "response" v "" hne, h0]
        · rfl
      · rfl
    · rfl

/-- C1 (amended): for every block collection and (present) workflow id,
the flattened handle list is exactly, block by block, one handle per leaf
reachable under a truthy `outputs.response` value, at the dot-joined key
sequence from `response` to the leaf; a block whose `response` value is
falsy (or absent, or whose `outputs` is not an object, or whose type is
`starter`) contributes no handles. -/
theorem outputs_flatten_leaves (w : String) (blocks : List Block) :
    workflowOutputs (some w) blocks = blocks.flatMap amendedBlockHandles := by
  show blocks.flatMap blockHandles = blocks.flatMap amendedBlockHandles
  rw [funext blockHandles_eq_amended]

/-- The C1 counterexample block: its `outputs.response` is the leaf `null`,
reachable at the key sequence `response`, yet the code's truthiness guard
drops it, so the block yields no handle. -/
def nullRespBlock : Block :=
  { id := "b1", name := "Agent One", type := "agent"
    outputs := some (.vobj (.fcons "response" .vnull .fnil)) }

/-- C1, the claim as stated, is false: on a block whose `outputs.response`
is the leaf `null`, the claim demands exactly one handle (path `response`)
but the code produces none. -/
theorem outputs_flatten_counterexample :
    workflowOutputs (some "w") [nullRespBlock]
      ≠ [nullRespBlock].flatMap claimBlockHandles := by decide

/-- C9: a null workflow id yields the empty handle list, whatever the
blocks are. -/
theorem no_workflow_id_no_outputs (blocks : List Block) :
    workflowOutputs none blocks = [] := rfl

/-- C5: a block of the starter type contributes no output handles: removing
it from the block collection leaves the flattened handle list unchanged,
whatever its `outputs` field contains. -/
theorem starter_contributes_nothing (wid : Option String)
    (pre post : List Block) (b : Block) (hb : b.type = "starter") :
    workflowOutputs wid (pre ++ b :: post) = workflowOutputs wid (pre ++ post) := by
  cases wid with
  | none => rfl
  | some w =>
    show (pre ++ b :: post).flatMap blockHandles = (pre ++ post).flatMap blockHandles
    rw [List.flatMap_append, List.flatMap_append, List.flatMap_cons]
    have hz : blockHandles b = [] := by unfold blockHandles; rw [if_pos hb]
    rw [hz, List.nil_append]

/-- C5 witness: a starter block carrying a nonempty `outputs.response`
object still contributes nothing next to an agent block. -/
theorem starter_contributes_nothing_witness :
    workflowOutputs (some "w")
        ([] ++ { id := "s", name := "Start", type := "starter"
                 outputs := some (.vobj (.fcons "response" (.vstr "x") .fnil)) : Block }
          :: [nullRespBlock])
      = workflowOutputs (some "w") ([] ++ [nullRespBlock]) :=
  starter_contributes_nothing (some "w") [] [nullRespBlock] _ rfl

theorem flat_insertGrouped (acc : List (String × List Handle)) (h : Handle) :
    ((insertGrouped acc h).flatMap Prod.snd).Perm
      (acc.flatMap Prod.snd ++ [h]) := by
  induction acc with
  | nil => simp [insertGrouped]
  | cons p rest ih =>
    rcases p with ⟨n, l⟩
    rw [insertGrouped]
    split
    · rw [List.flatMap_cons, List.flatMap_cons, List.append_assoc, List.append_assoc]
      exact List.Perm.append_left l (List.perm_append_comm.trans (List.Perm.refl _))
    · rw [List.flatMap_cons, List.flatMap_cons, List.append_assoc]
      exact List.Perm.append_left l ih

theorem foldl_insertGrouped_perm (hs : List Handle)
    (acc : List (String × List Handle)) :
    ((hs.foldl insertGrouped acc).flatMap Prod.snd).Perm
      (acc.flatMap Prod.snd ++ hs) := by
  induction hs generalizing acc with
  | nil => simp
  | cons h t ih =>
    rw [List.foldl_cons]
    refine (ih (insertGrouped acc h)).trans ?_
    have := List.Perm.append_right t (flat_insertGrouped acc h)
    refine this.trans ?_
    rw [List.append_assoc, List.singleton_append]

/-- C4: grouping the flattened handles by block name and concatenating the
groups back yields the original handle multiset: nothing lost, nothing
duplicated. -/
theorem group_roundtrip (wid : Option String) (blocks : List Block) :
    (((groupByName (workflowOutputs wid blocks)).flatMap Prod.snd : List Handle)
        : Multiset Handle)
      = (workflowOutputs wid blocks : Multiset Handle) := by
  rw [Multiset.coe_eq_coe]
  unfold groupByName
  have := foldl_insertGrouped_perm (workflowOutputs wid blocks) []
  simpa using this

theorem mem_insertDesc (g x : OutGroup) (l : List OutGroup) :
    x ∈ insertDesc g l ↔ x = g ∨ x ∈ l := by
  induction l with
  | nil => simp [insertDesc]
  | cons h t ih =>
    rw [insertDesc]
    split
    · simp [List.mem_cons]
    · simp only [List.mem_cons, ih]
      tauto

theorem pairwise_insertDesc (g : OutGroup) (l : List OutGroup)
    (hp : List.Pairwise (fun a b => b.distance ≤ a.distance) l) :
    List.Pairwise (fun a b => b.distance ≤ a.distance) (insertDesc g l) := by
  induction l with
  | nil => simp [insertDesc]
  | cons h t ih =>
    rw [insertDesc]
    rcases List.pairwise_cons.mp hp with ⟨hht, hpt⟩
    split
    · rename_i hle
      refine List.pairwise_cons.mpr ⟨?_, hp⟩
      intro x hx
      rcases List.mem_cons.mp hx with rfl | hx
      · exact hle
      · exact le_trans (hht x hx) hle
    · rename_i hgt
      refine List.pairwise_cons.mpr ⟨?_, ih hpt⟩
      intro x hx
      rcases (mem_insertDesc g x t).mp hx with rfl | hx
      · exact le_of_not_le hgt
      · exact hht x hx

theorem sortGroups_pairwise (gs : List OutGroup) :
    List.Pairwise (fun a b => b.distance ≤ a.distance) (sortGroups gs) := by
  induction gs with
  | nil => simp [sortGroups]
  | cons g t ih => exact pairwise_insertDesc g _ ih

theorem filter_insertDesc (g : OutGroup) (l : List OutGroup) (d : Nat) :
    (insertDesc g l).filter (fun x => x.distance = d)
      = if g.distance = d then g :: l.filter (fun x => x.distance = d)
        else l.filter (fun x => x.distance = d) := by
  induction l with
  | nil =>
    rw [insertDesc]
    by_cases hg : g.distance = d
    · rw [if_pos hg]
      simp [List.filter, hg]
    · rw [if_neg hg]
      simp [List.filter, hg]
  | cons h t ih =>
    rw [insertDesc]
    split
    · rename_i hle
      by_cases hg : g.distance = d
      · rw [if_pos hg]
        simp [List.filter_cons, hg]
      · rw [if_neg hg]
        simp [List.filter_cons, hg]
    · rename_i hgt
      rw [List.filter_cons, List.filter_cons, ih]
      by_cases hg : g.distance = d
      · rw [if_pos hg, if_pos hg]
        have hh : ¬ h.distance = d := by
          intro hc
          exact hgt (le_of_eq (hg ▸ hc))
        simp [hh]
      · rw [if_neg hg, if_neg hg]

theorem sortGroups_filter_stable (gs : List OutGroup) (d : Nat) :
    (sortGroups gs).filter (fun x => x.distance = d)
      = gs.filter (fun x => x.distance = d) := by
  induction gs with
  | nil => rfl
  | cons g t ih =>
    show (insertDesc g (sortGroups t)).filter (fun x => x.distance = d)
      = (g :: t).filter (fun x => x.distance = d)
    rw [filter_insertDesc, List.filter_cons, ih]
    by_cases hg : g.distance = d
    · rw [if_pos hg]
      simp [hg]
    · rw [if_neg hg]
      simp [hg]

/-- C2: in the grouped result, groups are ordered by descending owning-block
distance (so a group with strictly larger distance appears before one with
smaller distance), groups of equal distance keep their discovery order
(filtering at any fixed distance is unchanged by the sort), a group whose
owning block has no computed distance gets distance zero, and
`groupedOutputs` is exactly the sorted group array read back in order. -/
theorem groups_sorted_by_distance (wid : Option String) (blocks : List Block)
    (edges : List Edge) :
    List.Pairwise (fun a b => b.distance ≤ a.distance)
      (sortGroups (groupsArrayOf (bfsDistancesOf blocks edges)
        (groupByName (workflowOutputs wid blocks)))) ∧
    (∀ d : Nat,
      (sortGroups (groupsArrayOf (bfsDistancesOf blocks edges)
          (groupByName (workflowOutputs wid blocks)))).filter
          (fun g => g.distance = d)
        = (groupsArrayOf (bfsDistancesOf blocks edges)
            (groupByName (workflowOutputs wid blocks))).filter
            (fun g => g.distance = d)) ∧
    (∀ g ∈ groupsArrayOf (bfsDistancesOf blocks edges)
        (groupByName (workflowOutputs wid blocks)),
      ∀ h0, g.outputs.head? = some h0 →
        (bfsDistancesOf blocks edges).lookup h0.blockId = none →
          g.distance = 0) ∧
    groupedOutputs wid blocks edges
      = (sortGroups (groupsArrayOf (bfsDistancesOf blocks edges)
          (groupByName (workflowOutputs wid blocks)))).map
          (fun g => (g.blockName, g.outputs)) := by
  refine ⟨sortGroups_pairwise _, fun d => sortGroups_filter_stable _ d, ?_, rfl⟩
  intro g hg h0 hh0 hlk
  rcases List.mem_map.mp hg with ⟨p, hp, rfl⟩
  have hh0' : p.2.head? = some h0 := hh0
  show (match p.2.head? with
    | some h => if h.blockId = "" then 0
        else (((bfsDistancesOf blocks edges).lookup h.blockId).getD 0)
    | none => 0) = 0
  rw [hh0']
  show (if h0.blockId = "" then 0
    else (((bfsDistancesOf blocks edges).lookup h0.blockId).getD 0)) = 0
  split
  · rfl
  · rw [hlk]
    rfl

theorem bfs_expands_once (adj : List (String × List String))
    (visited : List String) (dist : List (String × Nat))
    (queue : List (String × Nat))
    (hnd : (dist.map Prod.fst).Nodup)
    (hvis : ∀ k ∈ dist.map Prod.fst, k ∈ visited) :
    ((bfsLoop adj visited dist queue).map Prod.fst).Nodup := by
  revert hnd hvis
  refine bfsLoop.induct adj
    (fun visited dist queue => (dist.map Prod.fst).Nodup →
      (∀ k ∈ dist.map Prod.fst, k ∈ visited) →
      ((bfsLoop adj visited dist queue).map Prod.fst).Nodup)
    ?_ ?_ ?_ visited dist queue
  · intro visited dist hnd hvis
    simpa [bfsLoop] using hnd
  · intro visited dist n d rest hn ih hnd hvis
    rw [bfsLoop, if_pos hn]
    exact ih hnd hvis
  · intro visited dist n d rest hn ih hnd hvis
    rw [bfsLoop, if_neg hn]
    apply ih
    · rw [List.map_append]
      refine List.Nodup.append hnd (by simp) ?_
      intro k hk hk'
      have : k = n := by simpa using hk'
      exact hn (this ▸ hvis k hk)
    · intro k hk
      rw [List.map_append, List.mem_append] at hk
      rcases hk with hk | hk
      · exact List.mem_cons_of_mem _ (hvis k hk)
      · have : k = n := by simpa using hk
        exact this ▸ List.mem_cons_self _ _

/-- C3: the breadth-first distance computation is a total function (the
Lean definition `bfsLoop` carries a termination proof valid for every
finite, possibly cyclic, edge set), and each block id is assigned a
distance at most once: the computed distance map has pairwise-distinct
keys. -/
theorem bfs_assigns_each_id_once (blocks : List Block) (edges : List Edge) :
    ((bfsDistancesOf blocks edges).map Prod.fst).Nodup := by
  unfold bfsDistancesOf
  split
  · exact bfs_expands_once _ [] [] _ (by simp) (by simp)
  · simp

/-- The claim's cyclic example, evaluated: on edges A→B and B→A the BFS
terminates and assigns A distance 0 and B distance 1. -/
theorem bfs_cyclic_example :
    bfsLoop (buildAdj [{ source := "A", target := "B" },
        { source := "B", target := "A" }]) [] [] [("A", 0)]
      = [("A", 0), ("B", 1)] := by
  simp [bfsLoop, buildAdj, addEdge, List.lookup]

/-- C7: the settings navigation keeps exactly the items for which neither
gate fires (dev-hidden while in dev mode; team-required without a team),
and keeps them in the order of the static source list (the result is a
sublist of it). -/
theorem navigation_filter_exact (isDev isTeam : Bool) :
    (navigationItems isDev isTeam).Sublist allNavigationItems ∧
    (∀ i, i ∈ navigationItems isDev isTeam ↔
      i ∈ allNavigationItems ∧ ¬(i.hideInDev = true ∧ isDev = true) ∧
        ¬(i.requiresTeam = true ∧ isTeam = false)) := by
  refine ⟨List.filter_sublist _, ?_⟩
  intro i
  rw [navigationItems, List.mem_filter]
  constructor
  · rintro ⟨hm, hp⟩
    refine ⟨hm, ?_, ?_⟩
    · rintro ⟨h1, h2⟩
      rw [h1, h2] at hp
      simp at hp
    · rintro ⟨h1, h2⟩
      rw [h1, h2] at hp
      cases hd : i.hideInDev <;> cases hv : isDev <;> rw [hd, hv] at hp <;> simp_all
  · rintro ⟨hm, h1, h2⟩
    refine ⟨hm, ?_⟩
    cases hd : i.hideInDev <;> cases hv : isDev <;> cases ht : i.requiresTeam
      <;> cases hw : isTeam <;> simp_all

theorem mem_amendedBlockHandles (b : Block) (h : Handle)
    (hm : h ∈ amendedBlockHandles b) : ∃ fp, h = mkHandle b fp := by
  unfold amendedBlockHandles at hm
  split at hm
  · simp at hm
  · split at hm
    · split at hm
      · split at hm
        · rcases List.mem_map.mp hm with ⟨ks, _, rfl⟩
          exact ⟨_, rfl⟩
        · simp at hm
      · simp at hm
    · simp at hm

theorem handle_shape (wid : Option String) (blocks : List Block) (h : Handle)
    (hm : h ∈ workflowOutputs wid blocks) :
    h.label = normalizeName h.blockName ++ "." ++ h.path ∧
    h.id = h.blockId ++ "_" ++ h.path := by
  cases wid with
  | none => simp [workflowOutputs] at hm
  | some w =>
    rw [show workflowOutputs (some w) blocks = blocks.flatMap blockHandles from rfl,
      funext blockHandles_eq_amended] at hm
    rcases List.mem_flatMap.mp hm with ⟨b, _, hb⟩
    rcases mem_amendedBlockHandles b h hb with ⟨fp, rfl⟩
    exact ⟨rfl, rfl⟩

/-- C8: the selected-output display name is the placeholder when nothing is
selected; it is the placeholder (and no error) when the selected id matches
no handle in the flattened list; and when a handle matches, it equals that
handle's label. -/
theorem selected_display_name (wid : Option String) (blocks : List Block)
    (sid ph : String) :
    (selectedOutputDisplayName none ph (workflowOutputs wid blocks) = ph) ∧
    ((∀ h ∈ workflowOutputs wid blocks, h.id ≠ sid) →
      selectedOutputDisplayName (some sid) ph (workflowOutputs wid blocks) = ph) ∧
    (∀ h, (workflowOutputs wid blocks).find? (fun o => o.id = sid) = some h →
      selectedOutputDisplayName (some sid) ph (workflowOutputs wid blocks)
        = h.label) := by
  refine ⟨rfl, ?_, ?_⟩
  · intro habs
    have hnone : (workflowOutputs wid blocks).find? (fun o => o.id = sid) = none := by
      rw [List.find?_eq_none]
      intro x hx
      simpa using habs x hx
    show (match (workflowOutputs wid blocks).find? (fun o => o.id = sid) with
      | some o => normalizeName o.blockName ++ "." ++ o.path
      | none => ph) = ph
    rw [hnone]
  · intro h hfind
    have hmem : h ∈ workflowOutputs wid blocks := List.mem_of_find?_eq_some hfind
    have hlabel := (handle_shape wid blocks h hmem).1
    show (match (workflowOutputs wid blocks).find? (fun o => o.id = sid) with
      | some o => normalizeName o.blockName ++ "." ++ o.path
      | none => ph) = h.label
    rw [hfind, hlabel]

/-- C6 counterexample, first block: one handle at path
`response.a_response`, so with block id `x` the handle id is
`x_response.a_response`. -/
def underscoreBlockA : Block :=
  { id := "x", name := "A Block", type := "agent"
    outputs := some (.vobj (.fcons "response"
      (.vobj (.fcons "a_response" (.vstr "v") .fnil)) .fnil)) }

/-- C6 counterexample, second block: block id `x_response.a` and one handle
at path `response`, so the handle id is also `x_response.a_response`. -/
def underscoreBlockB : Block :=
  { id := "x_response.a", name := "B Block", type := "agent"
    outputs := some (.vobj (.fcons "response" (.vstr "v") .fnil)) }

/-- C6, the claim as stated, is false: two handles produced from distinct
(block id, path) pairs can share one composite identifier, because the
identifier just concatenates the two with an underscore. -/
theorem handle_id_counterexample :
    ∃ h1 ∈ workflowOutputs (some "w") [underscoreBlockA, underscoreBlockB],
      ∃ h2 ∈ workflowOutputs (some "w") [underscoreBlockA, underscoreBlockB],
        (h1.blockId, h1.path) ≠ (h2.blockId, h2.path) ∧ h1.id = h2.id := by
  decide

theorem append_underscore_inj (a p b q : List Char)
    (ha : '_' ∉ a) (hb : '_' ∉ b)
    (heq : a ++ '_' :: p = b ++ '_' :: q) : a = b ∧ p = q := by
  induction a generalizing b with
  | nil =>
    cases b with
    | nil => simpa using heq
    | cons c bs =>
      rw [List.nil_append, List.cons_append, List.cons.injEq] at heq
      exact absurd (heq.1 ▸ List.mem_cons_self c bs) hb
  | cons c as ih =>
    cases b with
    | nil =>
      rw [List.nil_append, List.cons_append, List.cons.injEq] at heq
      exact absurd (heq.1 ▸ List.mem_cons_self c as) ha
    | cons c' bs =>
      rw [List.cons_append, List.cons_append, List.cons.injEq] at heq
      have ha' : '_' ∉ as := fun hc => ha (List.mem_cons_of_mem c hc)
      have hb' : '_' ∉ bs := fun hc => hb (List.mem_cons_of_mem c' hc)
      rcases ih bs ha' hb' heq.2 with ⟨h1, h2⟩
      exact ⟨by rw [heq.1, h1], h2⟩

theorem data_underscore_append (a p : String) :
    (a ++ "_" ++ p).data = a.data ++ '_' :: p.data := by
  rw [String.data_append, String.data_append, List.append_assoc]
  rfl

/-- C6 (amended): output-handle identifiers are unique per (block id, path)
pair provided the owning block ids contain no underscore character; with an
underscore in a block id the concatenated identifier can collide (see the
counterexample). -/
theorem handle_id_unique (wid : Option String) (blocks : List Block)
    (h1 h2 : Handle)
    (hm1 : h1 ∈ workflowOutputs wid blocks)
    (hm2 : h2 ∈ workflowOutputs wid blocks)
    (hu1 : '_' ∉ h1.blockId.data) (hu2 : '_' ∉ h2.blockId.data)
    (hne : (h1.blockId, h1.path) ≠ (h2.blockId, h2.path)) :
    h1.id ≠ h2.id := by
  intro hid
  have e1 := (handle_shape wid blocks h1 hm1).2
  have e2 := (handle_shape wid blocks h2 hm2).2
  rw [e1, e2] at hid
  have hdata := congrArg String.data hid
  rw [data_underscore_append, data_underscore_append] at hdata
  rcases append_underscore_inj _ _ _ _ hu1 hu2 hdata with ⟨hbid, hpath⟩
  exact hne (by rw [String.ext hbid, String.ext hpath])

/-- C6 witness block with an underscore-free id `p`. -/
def plainBlockP : Block :=
  { id := "p", name := "P", type := "agent"
    outputs := some (.vobj (.fcons "response" (.vstr "x") .fnil)) }

/-- C6 witness block with an underscore-free id `q`. -/
def plainBlockQ : Block :=
  { id := "q", name := "Q", type := "agent"
    outputs := some (.vobj (.fcons "response" (.vstr "x") .fnil)) }

/-- C6 witness: two concrete handles from distinct underscore-free blocks
have distinct identifiers. -/
theorem handle_id_unique_witness :
    (mkHandle plainBlockP "response").id ≠ (mkHandle plainBlockQ "response").id :=
  handle_id_unique (some "w") [plainBlockP, plainBlockQ] _ _
    (by decide) (by decide) (by decide) (by decide) (by decide)

theorem filter_single_ne (h : Handle) (n : String) (hne : h.blockName ≠ n) :
    [h].filter (fun x => x.blockName = n) = [] := by simp [hne]

theorem keys_insertGrouped (acc : List (String × List Handle)) (h : Handle) :
    (insertGrouped acc h).map Prod.fst
      = if h.blockName ∈ acc.map Prod.fst then acc.map Prod.fst
        else acc.map Prod.fst ++ [h.blockName] := by
  induction acc with
  | nil => simp [insertGrouped]
  | cons p rest ih =>
    rcases p with ⟨n, l⟩
    rw [insertGrouped]
    split
    · rename_i he
      rw [List.map_cons, List.map_cons, if_pos]
      exact List.mem_cons.mpr (Or.inl he.symm)
    · rename_i hne
      rw [List.map_cons, List.map_cons, ih]
      by_cases hmem : h.blockName ∈ rest.map Prod.fst
      · rw [if_pos hmem, if_pos (List.mem_cons_of_mem _ hmem)]
      · rw [if_neg hmem, if_neg ?_, List.cons_append]
        intro hc
        rcases List.mem_cons.mp hc with hce | hcm
        · exact hne hce.symm
        · exact hmem hcm

theorem content_insertGrouped (acc : List (String × List Handle))
    (done : List Handle) (h : Handle)
    (H1 : ∀ p ∈ acc, p.2 = done.filter (fun x => x.blockName = p.1))
    (H2 : h.blockName ∉ acc.map Prod.fst →
      done.filter (fun x => x.blockName = h.blockName) = [])
    (H3 : (acc.map Prod.fst).Nodup) :
    ∀ p ∈ insertGrouped acc h,
      p.2 = (done ++ [h]).filter (fun x => x.blockName = p.1) := by
  induction acc with
  | nil =>
    intro p hp
    simp only [insertGrouped, List.mem_singleton] at hp
    subst hp
    show [h] = (done ++ [h]).filter (fun x => x.blockName = h.blockName)
    rw [List.filter_append, H2 (by simp)]
    simp
  | cons q rest ih =>
    rcases q with ⟨n, l⟩
    intro p hp
    rw [insertGrouped] at hp
    split at hp
    · rename_i he
      rcases List.mem_cons.mp hp with rfl | hp
      · show l ++ [h] = (done ++ [h]).filter (fun x => x.blockName = n)
        rw [List.filter_append]
        have hl : l = done.filter (fun x => x.blockName = n) :=
          H1 (n, l) (List.mem_cons_self _ _)
        rw [← hl]
        congr 1
        simp [he.symm]
      · have hp1 : p.2 = done.filter (fun x => x.blockName = p.1) :=
          H1 p (List.mem_cons_of_mem _ hp)
        rw [List.filter_append, hp1]
        have H3' : (n :: rest.map Prod.fst).Nodup := by
          rw [List.map_cons] at H3; exact H3
        have hkeys := List.nodup_cons.mp H3'
        have hpk : p.1 ∈ rest.map Prod.fst := List.mem_map.mpr ⟨p, hp, rfl⟩
        have hnp : h.blockName ≠ p.1 := by
          intro hc
          exact hkeys.1 (by rw [he, hc]; exact hpk)
        rw [filter_single_ne h p.1 hnp, List.append_nil]
    · rename_i hne
      rcases List.mem_cons.mp hp with rfl | hp
      · have hl : l = done.filter (fun x => x.blockName = n) :=
          H1 (n, l) (List.mem_cons_self _ _)
        show l = (done ++ [h]).filter (fun x => x.blockName = n)
        rw [List.filter_append, ← hl,
          filter_single_ne h n (fun hc => hne hc.symm), List.append_nil]
      · have H3' : (n :: rest.map Prod.fst).Nodup := by
          rw [List.map_cons] at H3; exact H3
        have hkeys := List.nodup_cons.mp H3'
        refine ih (fun r hr => H1 r (List.mem_cons_of_mem _ hr)) ?_ hkeys.2 p hp
        intro hnm
        apply H2
        intro hc
        rw [List.map_cons] at hc
        rcases List.mem_cons.mp hc with hce | hcm
        · exact hne hce.symm
        · exact hnm hcm

theorem newname_insertGrouped (acc : List (String × List Handle))
    (done : List Handle) (h : Handle)
    (H2 : ∀ n, n ∉ acc.map Prod.fst →
      done.filter (fun x => x.blockName = n) = []) :
    ∀ n, n ∉ (insertGrouped acc h).map Prod.fst →
      (done ++ [h]).filter (fun x => x.blockName = n) = [] := by
  intro n hn
  rw [keys_insertGrouped] at hn
  have hn1 : n ∉ acc.map Prod.fst := by
    by_cases hmem : h.blockName ∈ acc.map Prod.fst
    · rwa [if_pos hmem] at hn
    · rw [if_neg hmem] at hn
      intro hc
      exact hn (List.mem_append.mpr (Or.inl hc))
  have hn2 : h.blockName ≠ n := by
    intro hc
    by_cases hmem : h.blockName ∈ acc.map Prod.fst
    · rw [if_pos hmem] at hn
      exact hn (hc ▸ hmem)
    · rw [if_neg hmem] at hn
      exact hn (List.mem_append.mpr (Or.inr (by rw [← hc]; exact List.mem_singleton_self _)))
  rw [List.filter_append, H2 n hn1, filter_single_ne h n hn2, List.append_nil]

theorem nodup_keys_insertGrouped (acc : List (String × List Handle)) (h : Handle)
    (H3 : (acc.map Prod.fst).Nodup) :
    ((insertGrouped acc h).map Prod.fst).Nodup := by
  rw [keys_insertGrouped]
  by_cases hmem : h.blockName ∈ acc.map Prod.fst
  · rwa [if_pos hmem]
  · rw [if_neg hmem]
    refine List.Nodup.append H3 (by simp) ?_
    intro k hk hk'
    have hkb : k = h.blockName := by simpa using hk'
    exact hmem (hkb ▸ hk)

theorem foldl_groups_content (hs : List Handle) :
    ∀ (acc : List (String × List Handle)) (done : List Handle),
      (∀ p ∈ acc, p.2 = done.filter (fun x => x.blockName = p.1)) →
      (∀ n, n ∉ acc.map Prod.fst → done.filter (fun x => x.blockName = n) = []) →
      ((acc.map Prod.fst).Nodup) →
      ∀ p ∈ hs.foldl insertGrouped acc,
        p.2 = (done ++ hs).filter (fun x => x.blockName = p.1) := by
  induction hs with
  | nil =>
    intro acc done H1 H2 H3 p hp
    rw [List.append_nil]
    exact H1 p hp
  | cons h t ih =>
    intro acc done H1 H2 H3 p hp
    rw [List.foldl_cons] at hp
    have := ih (insertGrouped acc h) (done ++ [h])
      (content_insertGrouped acc done h H1 (H2 h.blockName) H3)
      (newname_insertGrouped acc done h H2)
      (nodup_keys_insertGrouped acc h H3)
      p hp
    rw [List.append_assoc] at this
    simpa using this

theorem groupByName_content (hs : List Handle) (p : String × List Handle)
    (hp : p ∈ groupByName hs) :
    p.2 = hs.filter (fun x => x.blockName = p.1) := by
  have := foldl_groups_content hs [] [] (by simp) (by simp) (by simp) p hp
  simpa using this

/-- C10: when blocks share a display name their handles merge into one
group whose handle list is exactly the discovery-order sublist of handles
with that name, and the group's sort distance is computed solely from the
block owning the group's first discovered handle (the head of that list);
other same-named blocks' distances play no role. -/
theorem merged_group_distance (dist : List (String × Nat)) (hs : List Handle)
    (g : OutGroup) (hg : g ∈ groupsArrayOf dist (groupByName hs)) :
    g.outputs = hs.filter (fun x => x.blockName = g.blockName) ∧
    g.distance = (match (hs.filter (fun x => x.blockName = g.blockName)).head? with
      | some h0 => if h0.blockId = "" then 0 else ((dist.lookup h0.blockId).getD 0)
      | none => 0) := by
  rcases List.mem_map.mp hg with ⟨p, hp, rfl⟩
  have hc := groupByName_content hs p hp
  refine ⟨hc, ?_⟩
  have hhead : p.2.head? = (hs.filter (fun x => x.blockName = p.1)).head? := by
    rw [hc]
  show (match p.2.head? with
    | some h0 => if h0.blockId = "" then 0 else ((dist.lookup h0.blockId).getD 0)
    | none => 0)
    = (match (hs.filter (fun x => x.blockName = p.1)).head? with
      | some h0 => if h0.blockId = "" then 0 else ((dist.lookup h0.blockId).getD 0)
      | none => 0)
  rw [hhead]

/-- C10 witness, first same-named block (distance 5 in the witness map). -/
def dupBlockOne : Block :=
  { id := "d1", name := "Dup", type := "agent"
    outputs := some (.vobj (.fcons "response" (.vstr "x") .fnil)) }

/-- C10 witness, second same-named block (distance 1 in the witness map). -/
def dupBlockTwo : Block :=
  { id := "d2", name := "Dup", type := "agent"
    outputs := some (.vobj (.fcons "response" (.vstr "y") .fnil)) }

/-- The single merged group of the C10 witness: both blocks' handles under
the one name, with the first block's distance 5 (not the second's 1). -/
def dupGroup : OutGroup :=
  { blockName := "Dup"
    outputs := [mkHandle dupBlockOne "response", mkHandle dupBlockTwo "response"]
    distance := 5 }

/-- C10 witness: with two distinct same-named blocks at distances 5 and 1,
the merged group holds both handles and sorts at the first block's
distance 5. -/
theorem merged_group_distance_witness :
    dupGroup.outputs
      = (workflowOutputs (some "w") [dupBlockOne, dupBlockTwo]).filter
          (fun x => x.blockName = dupGroup.blockName) ∧
    dupGroup.distance
      = (match ((workflowOutputs (some "w") [dupBlockOne, dupBlockTwo]).filter
            (fun x => x.blockName = dupGroup.blockName)).head? with
        | some h0 => if h0.blockId = "" then 0
            else ((([("d1", 5), ("d2", 1)] : List (String × Nat)).lookup h0.blockId).getD 0)
        | none => 0) :=
  merged_group_distance [("d1", 5), ("d2", 1)]
    (workflowOutputs (some "w") [dupBlockOne, dupBlockTwo]) dupGroup (by decide)
